import Mathlib

/-!
# Exchange cycle resolution engine — shallow embedding

A shallow embedding of the core of `src/exchangefinal.py` (a multi-party barter
exchange matcher) together with proofs about it.

Modelling conventions:

* Python values that can be either an `int` or a `str` (participant ids are
  agency-id strings entered through a text input, but the code also compares
  them against the integer literal `0` in `describe_cycles`) are modelled by
  the sum type `PyVal`.  Python `==` between an `int` and a `str` is `False`,
  which is exactly the derived structural equality of `PyVal`.
* Python dict accesses that can raise `KeyError` (`offer['full_name']`,
  `request_map[giver_id]`) are modelled in the `Except Unit` monad; `.error ()`
  stands for an uncaught `KeyError`.
* An asset record is reduced to the one field the core reads, `full_name`,
  which may be absent (`Option String`).  A request record is reduced to the
  fields the core reads: `id`, `name`, `offers`, `wants`.
* Python sets (`used_offers`, `used_nodes`) are modelled as lists; only
  membership is ever observed, and insertion is guarded so an element is never
  duplicated where the source uses a set.
* `networkx` library calls (`DiGraph`, `connected_components`,
  `simple_cycles`) are modelled from their documented behaviour: a digraph is
  a node list plus an edge list in insertion order; `simple_cycles` yields
  each elementary circuit as a list of *distinct* nodes (the starting node is
  not repeated at the end); `connected_components` partitions the nodes of the
  undirected view.
* Python string `.lower()`/`.upper()`/`.strip()` are modelled by Lean's
  `String.toLower`/`String.toUpper`/`String.trim` (ASCII case mapping; the
  inputs of interest are ASCII).
-/

/-- A dynamically typed Python scalar as used for participant ids: either an
`int` or a `str`.  Structural equality mirrors Python `==` on these values
(an `int` never equals a `str`). -/
inductive PyVal where
  | int : Int → PyVal
  | str : String → PyVal
deriving DecidableEq

/-- Participant identifiers (`agency_id` values and the literal `0` that
`describe_cycles` compares them with). -/
abbrev PId := PyVal

/-- An asset record as read by the core: only `full_name` is ever accessed,
and the key may be missing (`load_all_requests_from_mongo` only sets it when
both `MODELO` and `VERSION` are present). -/
structure Asset where
  full_name : Option String
deriving DecidableEq

/-- A participant request record, reduced to the fields the core reads. -/
structure Request where
  id : PId
  name : String
  offers : List Asset
  wants : List Asset
deriving DecidableEq

/-- `request_map`: a Python dict from participant id to request record;
lookup of a missing key raises `KeyError`, hence `Option`. -/
abbrev RequestMap := PId → Option Request

/-- A `(participantId, assetKey)` pair as stored in the `used_offers` set. -/
abbrev Key := PId × String

/-- Python `str.lower()`, modelled charwise (ASCII case mapping, applied to
each character; extensionally `String.toLower`). -/
def strLower (s : String) : String :=
  ⟨s.data.map Char.toLower⟩

/-- Python `str.upper()`, modelled charwise. -/
def strUpper (s : String) : String :=
  ⟨s.data.map Char.toUpper⟩

/-- Python `str.strip()`: drop leading and trailing whitespace. -/
def strStrip (s : String) : String :=
  ⟨((s.data.dropWhile Char.isWhitespace).reverse.dropWhile
      Char.isWhitespace).reverse⟩

/-- The identity key built by `load_all_requests_from_mongo`:
`MODELO.strip().upper() + " - " + VERSION.strip().upper()`. -/
def mkFullName (modelo version : String) : String :=
  strUpper (strStrip modelo) ++ " - " ++ strUpper (strStrip version)

/-- The case-insensitive key comparison used by `build_graph`,
`violates_offer_conflict` and `describe_cycles`:
`o['full_name'].lower() == w['full_name'].lower()`. -/
def full_name_match (a b : String) : Bool :=
  strLower a == strLower b

/-- A `networkx.DiGraph`, modelled as its node list and edge list in
insertion order (duplicates are never inserted, as in `networkx`). -/
structure Graph where
  nodes : List PId
  edges : List (PId × PId)
deriving DecidableEq

/-- `G.add_node(i)`: appends the node unless already present. -/
def addNode (ns : List PId) (i : PId) : List PId :=
  if i ∈ ns then ns else ns ++ [i]

/-- `G.add_edge(a, b)`: appends the edge unless already present (the
endpoints are request ids, which `build_graph` has already added). -/
def addEdge (g : Graph) (a b : PId) : Graph :=
  { g with edges := if (a, b) ∈ g.edges then g.edges else g.edges ++ [(a, b)] }

/-- Inner scan of
`any(o['full_name'].lower() == w['full_name'].lower() for o in offers for w in wants)`
for one offer: iterate the receiver's wants in order; reading a missing
`full_name` (of the offer or of the want) raises `KeyError`. -/
def wantsScan (ofn : Option String) : List Asset → Except Unit Bool
  | [] => .ok false
  | w :: ws =>
    match ofn, w.full_name with
    | some ko, some kw =>
      if full_name_match ko kw then .ok true else wantsScan ofn ws
    | _, _ => .error ()

/-- The generator of `build_graph`'s `any(...)`: offers outer, wants inner,
short-circuiting on the first match (so a keyless record after the first
match is never read). -/
def anyPairMatch : List Asset → List Asset → Except Unit Bool
  | [], _ => .ok false
  | o :: os, wants =>
    match wantsScan o.full_name wants with
    | .error e => .error e
    | .ok true => .ok true
    | .ok false => anyPairMatch os wants

/-- Inner loop of `build_graph`: for a fixed `req_a`, try every `req_b`,
skipping the pair when the ids are equal, and add the edge
`req_a.id → req_b.id` when some offer of `req_a` matches some want of
`req_b`. -/
def edgesFor (ra : Request) : List Request → Graph → Except Unit Graph
  | [], g => .ok g
  | rb :: rest, g =>
    if ra.id = rb.id then edgesFor ra rest g
    else
      match anyPairMatch ra.offers rb.wants with
      | .error e => .error e
      | .ok true => edgesFor ra rest (addEdge g ra.id rb.id)
      | .ok false => edgesFor ra rest g

/-- Outer loop of `build_graph` over `req_a`. -/
def buildEdges (all : List Request) : List Request → Graph → Except Unit Graph
  | [], g => .ok g
  | ra :: rest, g =>
    match edgesFor ra all g with
    | .error e => .error e
    | .ok g' => buildEdges all rest g'

/-- `build_graph(requests)`: add one node per request id, then add an edge
`A → B` for every ordered pair of requests with distinct ids such that some
offer key of `A` matches some want key of `B` case-insensitively.  Raises
`KeyError` (modelled as `.error ()`) when the comparison reaches an offer or
want record without a `full_name` key. -/
def build_graph (requests : List Request) : Except Unit Graph :=
  buildEdges requests requests
    { nodes := requests.foldl (fun ns r => addNode ns r.id) [], edges := [] }

/-! ## `violates_offer_conflict`

The conflict check *and commit step*.  For each consecutive `(giver,
receiver)` pair of the candidate cycle it walks the full `offers × wants`
product (there is no `break` in the source): every offer whose key matches a
want key yields `key = (giver_id, offer['full_name'])`; if `key` is already
in `used_offers` the function returns `True` immediately (leaving all marks
made so far in place, since the Python set is mutated in place), otherwise
`key` is added.  The updated set is therefore returned alongside the
decision. -/

/-- The `for want in receiver['wants']` loop for one offer of the giver. -/
def wantsLoop (gid : PId) (ofn : Option String) (used : List Key) :
    List Asset → Except Unit (Bool × List Key)
  | [] => .ok (false, used)
  | w :: ws =>
    match ofn, w.full_name with
    | some ko, some kw =>
      if full_name_match ko kw then
        if (gid, ko) ∈ used then .ok (true, used)
        else wantsLoop gid ofn (used ++ [(gid, ko)]) ws
      else wantsLoop gid ofn used ws
    | _, _ => .error ()

/-- The `for offer in giver['offers']` loop for one consecutive pair. -/
def offersLoop (gid : PId) (wants : List Asset) (used : List Key) :
    List Asset → Except Unit (Bool × List Key)
  | [] => .ok (false, used)
  | o :: os =>
    match wantsLoop gid o.full_name used wants with
    | .error e => .error e
    | .ok (true, u) => .ok (true, u)
    | .ok (false, u) => offersLoop gid wants u os

/-- `violates_offer_conflict(cycle, request_map, used_offers)`.  Returns the
decision together with the state of the (mutated-in-place) `used_offers`
set; a missing id in `request_map` or a missing `full_name` raises
`KeyError`. -/
def violates_offer_conflict (cycle : List PId) (rm : RequestMap)
    (used : List Key) : Except Unit (Bool × List Key) :=
  match cycle with
  | a :: b :: rest =>
    match rm a, rm b with
    | some giver, some receiver =>
      match offersLoop a receiver.wants used giver.offers with
      | .error e => .error e
      | .ok (true, u) => .ok (true, u)
      | .ok (false, u) => violates_offer_conflict (b :: rest) rm u
    | _, _ => .error ()
  | _ => .ok (false, used)

/-! ## `networkx` graph helpers (modelled from the library's documented
behaviour) -/

/-- `subgraph.successors(node)`: the out-neighbours of `node`.  (We list
them in node order; in the examples below every node has at most one
successor, so the order is immaterial there.) -/
def successors (g : Graph) (n : PId) : List PId :=
  g.nodes.filter (fun m => decide ((n, m) ∈ g.edges))

/-- Neighbours of `n` in the undirected view `G.to_undirected()`. -/
def undirNeighbors (g : Graph) (n : PId) : List PId :=
  g.nodes.filter (fun m => decide ((n, m) ∈ g.edges ∨ (m, n) ∈ g.edges))

/-- Breadth-first collection of the connected component of the undirected
view.  `fuel` bounds the number of queue pops; each pop either discards an
already-visited node or visits a new one (enqueueing at most `|nodes|`
neighbours), so `(|nodes| + 1)²` pops always suffice and the fallback
branch is unreachable at the fuel used below. -/
def bfsComp (g : Graph) : Nat → List PId → List PId → List PId
  | 0, _, visited => visited
  | _ + 1, [], visited => visited
  | fuel + 1, n :: queue, visited =>
    if n ∈ visited then bfsComp g fuel queue visited
    else bfsComp g fuel (queue ++ undirNeighbors g n) (visited ++ [n])

/-- `nx.connected_components(G.to_undirected())`: one component per first
unseen node, in node order. -/
def ccAux (g : Graph) : List PId → List PId → List (List PId)
  | [], _ => []
  | n :: rest, seen =>
    if n ∈ seen then ccAux g rest seen
    else
      let comp := bfsComp g ((g.nodes.length + 1) * (g.nodes.length + 1)) [n] []
      comp :: ccAux g rest (seen ++ comp)

def connectedComponents (g : Graph) : List (List PId) :=
  ccAux g g.nodes []

/-- `G.subgraph(component).copy()`: the induced subgraph; node and edge
order follow the parent graph. -/
def subgraphOf (g : Graph) (comp : List PId) : Graph :=
  { nodes := g.nodes.filter (fun n => decide (n ∈ comp)),
    edges := g.edges.filter (fun e => decide (e.1 ∈ comp ∧ e.2 ∈ comp)) }

/-- Depth-first enumeration of the elementary circuits through `start`
whose other nodes come after `start` in node order, emitting each circuit
in `networkx` format: the node list *without* the starting node repeated at
the end.  `fuel` bounds the recursion depth; simple paths never exceed the
node count, so `g.nodes.length` suffices and the `0` branch is unreachable
at the fuel used in `simple_cycles`. -/
def scDfs (g : Graph) (start : PId) : Nat → PId → List PId → List (List PId)
  | 0, _, _ => []
  | fuel + 1, cur, path =>
    (successors g cur).flatMap fun n =>
      if n = start then [path]
      else if n ∈ path ∨ g.nodes.indexOf n ≤ g.nodes.indexOf start then []
      else scDfs g start fuel n (path ++ [n])

/-- `list(nx.simple_cycles(subgraph))`: every elementary circuit, listed
once, rooted at its node of least index, in `networkx` list format (no
repeated endpoint). -/
def simple_cycles (g : Graph) : List (List PId) :=
  g.nodes.flatMap fun s => scDfs g s g.nodes.length s [s]

/-! ## Greedy strategy -/

/-- Run-scoped mutable state shared by both strategies: the accepted
cycles, the `used_nodes` set and the `used_offers` set. -/
structure ExSt where
  all_cycles : List (List PId)
  used_nodes : List PId
  used_offers : List Key
deriving DecidableEq

/-- Python's stable `cycles.sort(key=len, reverse=True)`: descending by
length, equal lengths keeping their original relative order. -/
def insertByLenDesc (c : List PId) : List (List PId) → List (List PId)
  | [] => [c]
  | d :: ds =>
    if c.length ≤ d.length then d :: insertByLenDesc c ds
    else c :: d :: ds

def sortByLenDesc (l : List (List PId)) : List (List PId) :=
  l.foldr insertByLenDesc []

/-- The greedy acceptance scan: for each candidate cycle (longest first),
accept it iff none of its nodes is used and the conflict check passes;
`violates_offer_conflict`'s mutation of `used_offers` persists either
way. -/
def greedyScan (rm : RequestMap) : List (List PId) → ExSt → Except Unit ExSt
  | [], st => .ok st
  | c :: cs, st =>
    if c.any (fun p => decide (p ∈ st.used_nodes)) then greedyScan rm cs st
    else
      match violates_offer_conflict c rm st.used_offers with
      | .error e => .error e
      | .ok (true, u) => greedyScan rm cs { st with used_offers := u }
      | .ok (false, u) =>
        greedyScan rm cs
          { all_cycles := st.all_cycles ++ [c],
            used_nodes := st.used_nodes ++ c,
            used_offers := u }

/-- Per-component body of `sample_cycles_greedy`: enumerate the simple
cycles of the induced subgraph, keep those with `len(c) >= 3 and
c[0] == c[-1]`, sort by descending length, then scan. -/
def greedyComp (G : Graph) (rm : RequestMap) (comp : List PId) (st : ExSt) :
    Except Unit ExSt :=
  greedyScan rm
    (sortByLenDesc ((simple_cycles (subgraphOf G comp)).filter
      (fun c => decide (3 ≤ c.length ∧ c.head? = c.getLast?))))
    st

def greedyComps (G : Graph) (rm : RequestMap) :
    List (List PId) → ExSt → Except Unit ExSt
  | [], st => .ok st
  | comp :: comps, st =>
    match greedyComp G rm comp st with
    | .error e => .error e
    | .ok st' => greedyComps G rm comps st'

/-- `sample_cycles_greedy(G, request_map, max_len=10)`.  Note that the
source never reads `max_len` in the body of this function. -/
def sample_cycles_greedy (G : Graph) (rm : RequestMap) (max_len : Nat := 10) :
    Except Unit (List (List PId)) :=
  (greedyComps G rm (connectedComponents G)
    { all_cycles := [], used_nodes := [], used_offers := [] }).map
    (fun st => st.all_cycles)

/-! ## Exhaustive strategy

The Python loop keeps an explicit stack of `(node, path)` frames
(`stack.pop()` takes the most recently pushed frame, so our list keeps the
top of the stack at its head and newly pushed frames are reversed onto it).
For the frame being processed, the `for neighbor in successors(node)` loop
is split into two functions that together reproduce it exactly:

* the only state change happens at the *first* successor equal to `start`
  with `len(path) >= 3` (the loop `break`s right after handling it), and no
  frame is pushed at or after that successor — `exVisit`;
* every earlier successor `n` with `n not in path and len(path) < max_len`
  pushes the frame `(n, path + [n])`, independently of the state — the pure
  function `pushesOf`.

An error raised by `violates_offer_conflict` aborts the whole call, so the
frames already on the stack are never consumed in that case, matching the
exception propagating out of the Python function. -/

abbrev Frame := PId × List PId

/-- Frames pushed while scanning the successor list (stops at the `break`). -/
def pushesOf (start : PId) (maxLen : Nat) (path : List PId) :
    List PId → List Frame
  | [] => []
  | n :: rest =>
    if n = start ∧ 3 ≤ path.length then []
    else if n ∉ path ∧ path.length < maxLen then
      (n, path ++ [n]) :: pushesOf start maxLen path rest
    else pushesOf start maxLen path rest

/-- State effect of scanning the successor list: handle the closing cycle
at the first successor equal to `start` (if any), exactly as the source
does — the `used_nodes` test first, then the conflict check, whose
`used_offers` mutation persists even on rejection. -/
def exVisit (rm : RequestMap) (start : PId) (path : List PId) (st : ExSt) :
    List PId → Except Unit ExSt
  | [] => .ok st
  | n :: rest =>
    if n = start ∧ 3 ≤ path.length then
      let cycle := path ++ [start]
      if cycle.any (fun p => decide (p ∈ st.used_nodes)) then .ok st
      else
        match violates_offer_conflict cycle rm st.used_offers with
        | .error e => .error e
        | .ok (true, u) => .ok { st with used_offers := u }
        | .ok (false, u) =>
          .ok { all_cycles := st.all_cycles ++ [cycle],
                used_nodes := st.used_nodes ++ cycle,
                used_offers := u }
    else exVisit rm start path st rest

/-- Weight of a stack frame for the termination measure of `dfsLoop`:
pushed paths strictly grow and never exceed `max_len`, and a popped frame
spawns at most `|nodes| < B` children of one smaller exponent. -/
def frameWeight (B K : Nat) (f : Frame) : Nat :=
  B ^ (K + 1 - f.2.length)

def stackWeight (B K : Nat) (stack : List Frame) : Nat :=
  (stack.map (frameWeight B K)).sum

/-- The `while stack:` loop of `sample_cycles_exhaustive` for one starting
node, with an explicit fuel argument counting the remaining `stack.pop()`
iterations.  `stackWeight` strictly decreases at every iteration (theorem
`stackWeight_step_lt` below), so with the fuel supplied by `dfsLoop` the
truncating `0` branch is unreachable (theorem `dfsLoopF_congr` below) and
the function computes exactly the Python loop. -/
def dfsLoopF (g : Graph) (rm : RequestMap) (maxLen : Nat) (start : PId) :
    Nat → List Frame → ExSt → Except Unit ExSt
  | _, [], st => .ok st
  | 0, _ :: _, st => .ok st
  | fuel + 1, (node, path) :: rest, st =>
    match exVisit rm start path st (successors g node) with
    | .error _ => .error ()
    | .ok st' =>
      dfsLoopF g rm maxLen start fuel
        ((pushesOf start maxLen path (successors g node)).reverse ++ rest) st'

/-- The `while stack:` loop, started with provably sufficient fuel. -/
def dfsLoop (g : Graph) (rm : RequestMap) (maxLen : Nat) (start : PId)
    (stack : List Frame) (st : ExSt) : Except Unit ExSt :=
  dfsLoopF g rm maxLen start
    (stackWeight (g.nodes.length + 1) maxLen stack) stack st


/-- The `for start in subgraph.nodes:` loop. -/
def exStarts (g : Graph) (rm : RequestMap) (maxLen : Nat) :
    List PId → ExSt → Except Unit ExSt
  | [], st => .ok st
  | s :: ss, st =>
    match dfsLoop g rm maxLen s [(s, [s])] st with
    | .error _ => .error ()
    | .ok st' => exStarts g rm maxLen ss st'

/-- The `for component in nx.connected_components(...)` loop. -/
def exComps (G : Graph) (rm : RequestMap) (maxLen : Nat) :
    List (List PId) → ExSt → Except Unit ExSt
  | [], st => .ok st
  | comp :: comps, st =>
    match exStarts (subgraphOf G comp) rm maxLen (subgraphOf G comp).nodes st with
    | .error _ => .error ()
    | .ok st' => exComps G rm maxLen comps st'

/-- `sample_cycles_exhaustive(G, request_map, max_len=10)`. -/
def sample_cycles_exhaustive (G : Graph) (rm : RequestMap)
    (max_len : Nat := 10) : Except Unit (List (List PId)) :=
  (exComps G rm max_len (connectedComponents G)
    { all_cycles := [], used_nodes := [], used_offers := [] }).map
    (fun st => st.all_cycles)

/-! ## `describe_cycles` -/

/-- Inner scan of `next((o for o in giver['offers'] for w in receiver['wants']
if o['full_name'].lower() == w['full_name'].lower()), None)` for one offer:
first matching want wins; a missing `full_name` raises `KeyError`. -/
def moWants (ofn : Option String) : List Asset → Except Unit (Option String)
  | [] => .ok none
  | w :: ws =>
    match ofn, w.full_name with
    | some ko, some kw =>
      if full_name_match ko kw then .ok (some ko) else moWants ofn ws
    | _, _ => .error ()

/-- Outer scan of the `matching_offer` generator: offers in stored order,
first offer with a matching want wins. -/
def moScan : List Asset → List Asset → Except Unit (Option String)
  | [], _ => .ok none
  | o :: os, wants =>
    match moWants o.full_name wants with
    | .error e => .error e
    | .ok (some k) => .ok (some k)
    | .ok none => moScan os wants

/-- The `matching_offer` expression of `describe_cycles`: the `full_name`
of the first offer of the giver (in stored order) matching some want of the
receiver, or `none`. -/
def matchingOffer (giver receiver : Request) : Except Unit (Option String) :=
  moScan giver.offers receiver.wants

/-- The description lines of one cycle: one line per consecutive pair that
has a matching offer, `"{giver} offers '{key}' → to {receiver}"`. -/
def describeSteps (rm : RequestMap) : List PId → Except Unit (List String)
  | a :: b :: rest =>
    match rm a, rm b with
    | some giver, some receiver =>
      match matchingOffer giver receiver with
      | .error e => .error e
      | .ok (some k) =>
        match describeSteps rm (b :: rest) with
        | .error e => .error e
        | .ok ls =>
          .ok ((giver.name ++ " offers '" ++ k ++ "' → to " ++ receiver.name)
            :: ls)
      | .ok none => describeSteps rm (b :: rest)
    | _, _ => .error ()
  | _ => .ok []

/-- Python `sep.join(parts)`. -/
def joinSep (sep : String) : List String → String
  | [] => ""
  | [s] => s
  | s :: rest => s ++ sep ++ joinSep sep rest

/-- One row of the resulting data frames. -/
structure CycleRec where
  cycle_id : Nat
  exchange_path : String
deriving DecidableEq

/-- The enumerated loop of `describe_cycles`, carrying the running
`enumerate` index: skips cycles with `len(cycle) < 3 or cycle[0] !=
cycle[-1]`, and appends a described cycle to `user_cycles` exactly when the
Python value `0` occurs in its node list (`if 0 in cycle:`). -/
def describeFrom (rm : RequestMap) :
    Nat → List (List PId) → Except Unit (List CycleRec × List CycleRec)
  | _, [] => .ok ([], [])
  | i, c :: cs =>
    if c.length < 3 ∨ ¬ c.head? = c.getLast? then describeFrom rm (i + 1) cs
    else
      match describeSteps rm c with
      | .error e => .error e
      | .ok lines =>
        match describeFrom rm (i + 1) cs with
        | .error e => .error e
        | .ok (alls, mines) =>
          let row : CycleRec := ⟨i, joinSep "\n" lines⟩
          .ok (row :: alls,
            if PyVal.int 0 ∈ c then row :: mines else mines)

/-- `describe_cycles(cycles, request_map)`: the full result list and the
`user_cycles` list (both returned as data frames by the source). -/
def describe_cycles (cycles : List (List PId)) (rm : RequestMap) :
    Except Unit (List CycleRec × List CycleRec) :=
  describeFrom rm 0 cycles

/-- The `(participantId, assetKey)` pair gifted at step `i` of a cycle, as
re-derived by `describe_cycles`' first-match rule: the giver is `cycle[i]`,
the receiver `cycle[i+1]`, and the asset the first offer of the giver whose
key matches some want of the receiver. -/
def giftAt (rm : RequestMap) (c : List PId) (i : Nat) :
    Except Unit (Option Key) :=
  match c.drop i with
  | a :: b :: _ =>
    match rm a, rm b with
    | some giver, some receiver =>
      (matchingOffer giver receiver).map (Option.map (fun k => (a, k)))
    | _, _ => .error ()
  | _ => .ok none

/-! ## Specification predicates (used in theorem statements) -/

/-- The demand-graph edge property: some request record of `a` offers an
asset whose identity key matches, case-insensitively, a want of some
request record of `b`. -/
def demandEdge (requests : List Request) (a b : PId) : Prop :=
  ∃ ra ∈ requests, ∃ rb ∈ requests, ra.id = a ∧ rb.id = b ∧ a ≠ b ∧
    ∃ o ∈ ra.offers, ∃ ko, o.full_name = some ko ∧
      ∃ w ∈ rb.wants, ∃ kw, w.full_name = some kw ∧
        full_name_match ko kw = true

/-- A well-formed closed cycle over graph `g`: first node repeated last,
at least three distinct internal nodes, and every consecutive pair an edge
of `g`. -/
def CycleOK (g : Graph) (c : List PId) : Prop :=
  c.head? = c.getLast? ∧ 3 ≤ c.dropLast.length ∧ c.dropLast.Nodup ∧
    List.Chain' (fun a b => (a, b) ∈ g.edges) c

/-- Invariant of a DFS stack frame `(node, path)`: the path is a nonempty
simple directed path of `g` from `start` to `node`. -/
def GoodFrame (g : Graph) (start : PId) (f : Frame) : Prop :=
  f.2 ≠ [] ∧ f.2.head? = some start ∧ f.2.getLast? = some f.1 ∧
    f.2.Nodup ∧ List.Chain' (fun a b => (a, b) ∈ g.edges) f.2

/-- Invariant of the shared strategy state: every accepted cycle is a
well-formed cycle of `g`, all its nodes are marked used, and accepted
cycles are pairwise node-disjoint. -/
def StOK (g : Graph) (st : ExSt) : Prop :=
  (∀ c ∈ st.all_cycles, CycleOK g c) ∧
  (∀ c ∈ st.all_cycles, ∀ p ∈ c, p ∈ st.used_nodes) ∧
  List.Pairwise (fun c d => ∀ p ∈ c, p ∉ d) st.all_cycles

/-! ## Concrete inputs used in end-to-end evaluations and witnesses -/

def pA : PId := .str "A"
def pB : PId := .str "B"
def pC : PId := .str "C"
def pD : PId := .str "D"
def pE : PId := .str "E"
def pF : PId := .str "F"

/-- The spec's end-to-end example: A offers X and wants Y, B offers Y and
wants Z, C offers Z and wants X. -/
def reqA : Request := ⟨pA, "A", [⟨some "X"⟩], [⟨some "Y"⟩]⟩
def reqB : Request := ⟨pB, "B", [⟨some "Y"⟩], [⟨some "Z"⟩]⟩
def reqC : Request := ⟨pC, "C", [⟨some "Z"⟩], [⟨some "X"⟩]⟩

def requests1 : List Request := [reqA, reqB, reqC]

def rm1 : RequestMap := fun i =>
  if i = pA then some reqA
  else if i = pB then some reqB
  else if i = pC then some reqC
  else none

/-- The demand graph of `requests1` (edges follow the giving direction:
A→C, C→B, B→A). -/
def g1 : Graph := ⟨[pA, pB, pC], [(pA, pC), (pB, pA), (pC, pB)]⟩

/-- A second, disjoint barter triangle D/E/F over goods U, V, W, used to
exhibit a run that accepts two cycles. -/
def reqD : Request := ⟨pD, "D", [⟨some "U"⟩], [⟨some "V"⟩]⟩
def reqE : Request := ⟨pE, "E", [⟨some "V"⟩], [⟨some "W"⟩]⟩
def reqF : Request := ⟨pF, "F", [⟨some "W"⟩], [⟨some "U"⟩]⟩

def requests6 : List Request := [reqA, reqB, reqC, reqD, reqE, reqF]

def rm6 : RequestMap := fun i =>
  if i = pA then some reqA
  else if i = pB then some reqB
  else if i = pC then some reqC
  else if i = pD then some reqD
  else if i = pE then some reqE
  else if i = pF then some reqF
  else none

def g6 : Graph :=
  ⟨[pA, pB, pC, pD, pE, pF],
   [(pA, pC), (pB, pA), (pC, pB), (pD, pF), (pE, pD), (pF, pE)]⟩

/-- Inputs for the conflict-tracker counterexamples: P offers K1, Q offers
K2 and wants K1, R wants K2. -/
def pP : PId := .str "P"
def pQ : PId := .str "Q"
def pR : PId := .str "R"
def reqP : Request := ⟨pP, "P", [⟨some "K1"⟩], []⟩
def reqQ : Request := ⟨pQ, "Q", [⟨some "K2"⟩], [⟨some "K1"⟩]⟩
def reqR : Request := ⟨pR, "R", [], [⟨some "K2"⟩]⟩

def rmC5 : RequestMap := fun i =>
  if i = pP then some reqP
  else if i = pQ then some reqQ
  else if i = pR then some reqR
  else none

/-- Inputs for the multiple-marks counterexample: G offers both K1 and K2,
H wants both, I is inert. -/
def pG : PId := .str "G"
def pH : PId := .str "H"
def pI : PId := .str "I"
def reqG : Request := ⟨pG, "G", [⟨some "K1"⟩, ⟨some "K2"⟩], []⟩
def reqH : Request := ⟨pH, "H", [], [⟨some "K1"⟩, ⟨some "K2"⟩]⟩
def reqI : Request := ⟨pI, "I", [], []⟩

def rmC6 : RequestMap := fun i =>
  if i = pG then some reqG
  else if i = pH then some reqH
  else if i = pI then some reqI
  else none

/-- A request whose single offer record has no `full_name` key, paired
with a request that wants a keyed asset: `build_graph` reaches the keyless
record and raises `KeyError`. -/
def reqNoKey : Request := ⟨.str "N", "N", [⟨none⟩], []⟩
def reqWantK : Request := ⟨.str "M", "M", [], [⟨some "K"⟩]⟩

/-! # Theorems

## Faithfulness of the fuelled DFS loop

`stackWeight` strictly decreases at every iteration of the `while stack:`
loop, so any fuel at least the current `stackWeight` yields the same result:
the truncating `0` branch of `dfsLoopF` is unreachable at the fuel
`dfsLoop` supplies, and the fuelled function computes exactly the unbounded
Python loop. -/

theorem pushesOf_spec (start : PId) (maxLen : Nat) (path : List PId)
    (succs : List PId) :
    (∀ f ∈ pushesOf start maxLen path succs, f.2.length = path.length + 1) ∧
    (pushesOf start maxLen path succs).length ≤ succs.length ∧
    (pushesOf start maxLen path succs ≠ [] → path.length < maxLen) := by
  induction succs with
  | nil => simp [pushesOf]
  | cons n rest ih =>
    obtain ⟨ih1, ih2, ih3⟩ := ih
    by_cases h1 : n = start ∧ 3 ≤ path.length
    · simp [pushesOf, h1]
    · by_cases h2 : n ∉ path ∧ path.length < maxLen
      · refine ⟨?_, ?_, fun _ => h2.2⟩
        · intro f hf
          simp only [pushesOf, if_neg h1, if_pos h2, List.mem_cons] at hf
          rcases hf with hf | hf
          · simp [hf]
          · exact ih1 f hf
        · simp only [pushesOf, if_neg h1, if_pos h2, List.length_cons]
          omega
      · refine ⟨?_, ?_, ?_⟩
        · intro f hf
          simp only [pushesOf, if_neg h1, if_neg h2] at hf
          exact ih1 f hf
        · simp only [pushesOf, if_neg h1, if_neg h2, List.length_cons]
          omega
        · intro hne
          simp only [pushesOf, if_neg h1, if_neg h2] at hne
          exact ih3 hne

theorem sum_map_const_le {α : Type} (w : α → Nat) (l : List α) (v : Nat)
    (hl : ∀ f ∈ l, w f = v) : (l.map w).sum ≤ l.length * v := by
  induction l with
  | nil => simp
  | cons f fs ih =>
    simp only [List.map_cons, List.sum_cons, List.length_cons]
    have h1 := hl f (by simp)
    have h2 := ih (fun f hf => hl f (by simp [hf]))
    calc w f + (fs.map w).sum ≤ v + fs.length * v :=
          Nat.add_le_add (le_of_eq h1) h2
      _ = (fs.length + 1) * v := by ring

theorem stackWeight_step_lt (g : Graph) (maxLen : Nat) (start node : PId)
    (path : List PId) (rest : List Frame) :
    stackWeight (g.nodes.length + 1) maxLen
      ((pushesOf start maxLen path (successors g node)).reverse ++ rest) <
    stackWeight (g.nodes.length + 1) maxLen ((node, path) :: rest) := by
  obtain ⟨h1, h2, h3⟩ := pushesOf_spec start maxLen path (successors g node)
  simp only [stackWeight, List.map_append, List.sum_append, List.map_cons,
    List.sum_cons, List.map_reverse, List.sum_reverse]
  by_cases hnil : pushesOf start maxLen path (successors g node) = []
  · simp only [hnil, List.map_nil, List.sum_nil, Nat.zero_add]
    have : 0 < frameWeight (g.nodes.length + 1) maxLen (node, path) :=
      Nat.pos_pow_of_pos _ (Nat.succ_pos _)
    omega
  · have hlt := h3 hnil
    have hval : ∀ f ∈ pushesOf start maxLen path (successors g node),
        frameWeight (g.nodes.length + 1) maxLen f =
          (g.nodes.length + 1) ^ (maxLen - path.length) := by
      intro f hf
      have := h1 f hf
      simp only [frameWeight, this]
      congr 1
      omega
    have hb := sum_map_const_le _ _ _ hval
    have hlen : (pushesOf start maxLen path (successors g node)).length ≤
        g.nodes.length :=
      le_trans h2 (List.length_filter_le _ _)
    have hpos : 0 < (g.nodes.length + 1) ^ (maxLen - path.length) :=
      Nat.pos_pow_of_pos _ (Nat.succ_pos _)
    have hstep : frameWeight (g.nodes.length + 1) maxLen (node, path) =
        (g.nodes.length + 1) *
          (g.nodes.length + 1) ^ (maxLen - path.length) := by
      simp only [frameWeight]
      rw [← pow_succ']
      congr 1
      omega
    have hmul : (pushesOf start maxLen path (successors g node)).length *
          (g.nodes.length + 1) ^ (maxLen - path.length) <
        (g.nodes.length + 1) *
          (g.nodes.length + 1) ^ (maxLen - path.length) :=
      Nat.mul_lt_mul_of_lt_of_le (by omega) (le_refl _) hpos
    omega

theorem stackWeight_pos (B K : Nat) (f : Frame) (rest : List Frame) :
    0 < stackWeight (B + 1) K (f :: rest) := by
  simp only [stackWeight, List.map_cons, List.sum_cons]
  have : 0 < frameWeight (B + 1) K f := Nat.pos_pow_of_pos _ (Nat.succ_pos _)
  omega

/-- Fuel irrelevance: any fuel at least the stack weight computes the same
result — in particular `dfsLoop`'s fuel is always sufficient. -/
theorem dfsLoopF_congr (g : Graph) (rm : RequestMap) (maxLen : Nat)
    (start : PId) :
    ∀ fuel₁ fuel₂ stack st,
      stackWeight (g.nodes.length + 1) maxLen stack ≤ fuel₁ →
      stackWeight (g.nodes.length + 1) maxLen stack ≤ fuel₂ →
      dfsLoopF g rm maxLen start fuel₁ stack st =
        dfsLoopF g rm maxLen start fuel₂ stack st := by
  intro fuel₁
  induction fuel₁ with
  | zero =>
    intro fuel₂ stack st h₁ h₂
    match stack with
    | [] => cases fuel₂ <;> rfl
    | f :: rest =>
      exact absurd h₁ (by
        have := stackWeight_pos g.nodes.length maxLen f rest
        omega)
  | succ a ih =>
    intro fuel₂ stack st h₁ h₂
    match stack with
    | [] => cases fuel₂ <;> rfl
    | (node, path) :: rest =>
      have hw := stackWeight_pos g.nodes.length maxLen (node, path) rest
      cases fuel₂ with
      | zero => exact absurd h₂ (by omega)
      | succ b =>
        simp only [dfsLoopF]
        cases exVisit rm start path st (successors g node) with
        | error e => rfl
        | ok st' =>
          have hlt := stackWeight_step_lt g maxLen start node path rest
          exact ih b _ st' (by omega) (by omega)

/-! ## The greedy strategy returns no cycles

`nx.simple_cycles` yields each elementary circuit as a list of *distinct*
nodes — the starting node is not repeated at the end — so the source's
filter `len(c) >= 3 and c[0] == c[-1]` rejects every one of them and the
greedy scan never sees a candidate. -/

theorem scDfs_nodup (g : Graph) (start : PId) :
    ∀ (fuel : Nat) (cur : PId) (path : List PId), path.Nodup →
      ∀ c ∈ scDfs g start fuel cur path, c.Nodup := by
  intro fuel
  induction fuel with
  | zero => intro cur path _ c hc; simp [scDfs] at hc
  | succ fuel ih =>
    intro cur path hpath c hc
    simp only [scDfs, List.mem_flatMap] at hc
    obtain ⟨n, -, hn⟩ := hc
    by_cases h1 : n = start
    · simp only [if_pos h1, List.mem_singleton] at hn
      exact hn ▸ hpath
    · simp only [if_neg h1] at hn
      by_cases h2 : n ∈ path ∨ g.nodes.indexOf n ≤ g.nodes.indexOf start
      · simp [if_pos h2] at hn
      · simp only [if_neg h2] at hn
        refine ih n (path ++ [n]) ?_ c hn
        have hn' : n ∉ path := fun h => h2 (Or.inl h)
        simp [List.nodup_append, hpath, hn']

theorem simple_cycles_nodup (g : Graph) :
    ∀ c ∈ simple_cycles g, c.Nodup := by
  intro c hc
  simp only [simple_cycles, List.mem_flatMap] at hc
  obtain ⟨s, -, hs⟩ := hc
  exact scDfs_nodup g s g.nodes.length s [s] (by simp) c hs

theorem head_ne_getLast_of_nodup (c : List PId) (h : c.Nodup)
    (hl : 2 ≤ c.length) : ¬ c.head? = c.getLast? := by
  match c, hl with
  | a :: b :: l, _ =>
    intro heq
    simp only [List.head?_cons, List.getLast?_cons_cons] at heq
    have ha : a ∈ b :: l := List.mem_of_getLast?_eq_some heq.symm
    exact (List.nodup_cons.mp h).1 ha

theorem greedy_filter_nil (g : Graph) :
    (simple_cycles g).filter
      (fun c => decide (3 ≤ c.length ∧ c.head? = c.getLast?)) = [] := by
  rw [List.filter_eq_nil_iff]
  intro c hc
  simp only [decide_eq_true_eq, not_and]
  intro h3
  exact head_ne_getLast_of_nodup c (simple_cycles_nodup g c hc) (by omega)

theorem greedyComp_ok (G : Graph) (rm : RequestMap) (comp : List PId)
    (st : ExSt) : greedyComp G rm comp st = .ok st := by
  unfold greedyComp
  rw [greedy_filter_nil]
  rfl

theorem greedyComps_ok (G : Graph) (rm : RequestMap) :
    ∀ (comps : List (List PId)) (st : ExSt),
      greedyComps G rm comps st = .ok st := by
  intro comps
  induction comps with
  | nil => intro st; rfl
  | cons comp comps ih =>
    intro st
    simp only [greedyComps, greedyComp_ok]
    exact ih st

/-- `sample_cycles_greedy` returns the empty cycle list on every input. -/
theorem sample_cycles_greedy_eq_nil (G : Graph) (rm : RequestMap)
    (max_len : Nat) : sample_cycles_greedy G rm max_len = .ok [] := by
  unfold sample_cycles_greedy
  rw [greedyComps_ok]
  rfl

/-! ## Conflict-check lemmas

The Python `used_offers` set is mutated in place, so marks made before a
conflict is detected survive the rejection (no rollback), and on acceptance
*every* matching offer of a pair is marked — the scan has no `break`. -/

theorem wantsLoop_subset (gid : PId) (ofn : Option String) :
    ∀ (wants : List Asset) (used : List Key) (b : Bool) (u : List Key),
      wantsLoop gid ofn used wants = .ok (b, u) → ∀ k ∈ used, k ∈ u := by
  intro wants
  induction wants with
  | nil =>
    intro used b u h k hk
    simp only [wantsLoop, Except.ok.injEq, Prod.mk.injEq] at h
    exact h.2 ▸ hk
  | cons w ws ih =>
    intro used b u h k hk
    obtain ⟨wfn⟩ := w
    cases ofn with
    | none => simp only [wantsLoop] at h; exact Except.noConfusion h
    | some ko =>
      cases wfn with
      | none => simp only [wantsLoop] at h; exact Except.noConfusion h
      | some kw =>
        simp only [wantsLoop] at h
        by_cases hm : full_name_match ko kw = true
        · rw [if_pos hm] at h
          by_cases hu : (gid, ko) ∈ used
          · rw [if_pos hu] at h
            simp only [Except.ok.injEq, Prod.mk.injEq] at h
            exact h.2 ▸ hk
          · rw [if_neg hu] at h
            exact ih _ b u h k (by simp [hk])
        · rw [if_neg hm] at h
          exact ih _ b u h k hk

theorem offersLoop_subset (gid : PId) (wants : List Asset) :
    ∀ (offers : List Asset) (used : List Key) (b : Bool) (u : List Key),
      offersLoop gid wants used offers = .ok (b, u) → ∀ k ∈ used, k ∈ u := by
  intro offers
  induction offers with
  | nil =>
    intro used b u h k hk
    simp only [offersLoop, Except.ok.injEq, Prod.mk.injEq] at h
    exact h.2 ▸ hk
  | cons o os ih =>
    intro used b u h k hk
    rw [offersLoop] at h
    match hwl : wantsLoop gid o.full_name used wants with
    | .error e => rw [hwl] at h; exact Except.noConfusion h
    | .ok (true, u') =>
      rw [hwl] at h
      dsimp only at h
      simp only [Except.ok.injEq, Prod.mk.injEq] at h
      exact h.2 ▸ wantsLoop_subset gid o.full_name wants used true u' hwl k hk
    | .ok (false, u') =>
      rw [hwl] at h
      dsimp only at h
      exact ih u' b u h k
        (wantsLoop_subset gid o.full_name wants used false u' hwl k hk)

/-- The tracker only grows: everything marked before the call (and
everything marked during it, even when the cycle is then rejected) is still
marked after the call. -/
theorem violates_subset (rm : RequestMap) :
    ∀ (cycle : List PId) (used : List Key) (b : Bool) (u : List Key),
      violates_offer_conflict cycle rm used = .ok (b, u) →
      ∀ k ∈ used, k ∈ u := by
  intro cycle
  induction cycle with
  | nil =>
    intro used b u h k hk
    simp only [violates_offer_conflict, Except.ok.injEq, Prod.mk.injEq] at h
    exact h.2 ▸ hk
  | cons a rest ih =>
    intro used b u h k hk
    match rest, h with
    | [], h =>
      simp only [violates_offer_conflict, Except.ok.injEq, Prod.mk.injEq] at h
      exact h.2 ▸ hk
    | b' :: rest', h =>
      rw [violates_offer_conflict] at h
      match hga : rm a, hgb : rm b' with
      | none, _ => rw [hga] at h; exact Except.noConfusion h
      | some giver, none =>
        rw [hga, hgb] at h
        exact Except.noConfusion h
      | some giver, some receiver =>
        rw [hga, hgb] at h
        dsimp only at h
        match hol : offersLoop a receiver.wants used giver.offers with
        | .error e => rw [hol] at h; exact Except.noConfusion h
        | .ok (true, u') =>
          rw [hol] at h
          dsimp only at h
          simp only [Except.ok.injEq, Prod.mk.injEq] at h
          exact h.2 ▸
            offersLoop_subset a receiver.wants giver.offers used true u' hol k hk
        | .ok (false, u') =>
          rw [hol] at h
          dsimp only at h
          exact ih u' b u h k
            (offersLoop_subset a receiver.wants giver.offers used false u' hol k hk)

theorem wantsLoop_marks (gid : PId) (ko : String) :
    ∀ (wants : List Asset) (used u : List Key),
      wantsLoop gid (some ko) used wants = .ok (false, u) →
      ∀ w ∈ wants, ∀ kw, w.full_name = some kw →
        full_name_match ko kw = true → (gid, ko) ∈ u := by
  intro wants
  induction wants with
  | nil => intro used u h w hw; simp at hw
  | cons w0 ws ih =>
    intro used u h w hw kw hwfn hmatch
    obtain ⟨wfn⟩ := w0
    cases wfn with
    | none => simp only [wantsLoop] at h; exact Except.noConfusion h
    | some kw0 =>
      simp only [wantsLoop] at h
      rcases List.mem_cons.mp hw with hw0 | hws
      · have hkw : kw = kw0 := by
          rw [hw0] at hwfn
          exact (Option.some.injEq _ _ ▸ hwfn).symm ▸ rfl
        subst hkw
        rw [if_pos hmatch] at h
        by_cases hu : (gid, ko) ∈ used
        · rw [if_pos hu] at h
          simp only [Except.ok.injEq, Prod.mk.injEq] at h
          exact absurd h.1 (by simp)
        · rw [if_neg hu] at h
          exact wantsLoop_subset gid (some ko) ws _ false u h (gid, ko)
            (by simp)
      · by_cases hm0 : full_name_match ko kw0 = true
        · rw [if_pos hm0] at h
          by_cases hu : (gid, ko) ∈ used
          · rw [if_pos hu] at h
            simp only [Except.ok.injEq, Prod.mk.injEq] at h
            exact absurd h.1 (by simp)
          · rw [if_neg hu] at h
            exact ih _ u h w hws kw hwfn hmatch
        · rw [if_neg hm0] at h
          exact ih _ u h w hws kw hwfn hmatch

theorem offersLoop_marks (gid : PId) (wants : List Asset) :
    ∀ (offers : List Asset) (used u : List Key),
      offersLoop gid wants used offers = .ok (false, u) →
      ∀ o ∈ offers, ∀ ko, o.full_name = some ko →
      ∀ w ∈ wants, ∀ kw, w.full_name = some kw →
      full_name_match ko kw = true → (gid, ko) ∈ u := by
  intro offers
  induction offers with
  | nil => intro used u h o ho; simp at ho
  | cons o0 os ih =>
    intro used u h o ho ko hko w hw kw hkw hmatch
    rw [offersLoop] at h
    match hwl : wantsLoop gid o0.full_name used wants with
    | .error e => rw [hwl] at h; exact Except.noConfusion h
    | .ok (true, u') =>
      rw [hwl] at h
      dsimp only at h
      simp only [Except.ok.injEq, Prod.mk.injEq] at h
      exact absurd h.1 (by simp)
    | .ok (false, u') =>
      rw [hwl] at h
      dsimp only at h
      rcases List.mem_cons.mp ho with ho0 | hos
      · rw [← ho0, hko] at hwl
        have := wantsLoop_marks gid ko wants used u' hwl w hw kw hkw hmatch
        exact offersLoop_subset gid wants os u' false u h (gid, ko) this
      · exact ih u' u h o hos ko hko w hw kw hkw hmatch

/-- On acceptance (`False` returned), for each consecutive pair of the
cycle, *every* offer of the giver whose key matches some want of the
receiver is marked in the tracker — the scan has no `break`, so it is not
only the first match that is committed. -/
theorem violates_marks (rm : RequestMap) :
    ∀ (cycle : List PId) (used u : List Key),
      violates_offer_conflict cycle rm used = .ok (false, u) →
      ∀ (i : Nat) (a b : PId) (tail : List PId),
        cycle.drop i = a :: b :: tail →
      ∀ giver receiver, rm a = some giver → rm b = some receiver →
      ∀ o ∈ giver.offers, ∀ ko, o.full_name = some ko →
      ∀ w ∈ receiver.wants, ∀ kw, w.full_name = some kw →
      full_name_match ko kw = true → (a, ko) ∈ u := by
  intro cycle
  induction cycle with
  | nil =>
    intro used u h i a b tail hdrop
    rw [List.drop_nil] at hdrop
    exact absurd hdrop (by simp)
  | cons a0 rest ih =>
    intro used u h i a b tail hdrop giver receiver hga hgb o ho ko hko w hw
      kw hkw hmatch
    match rest, h with
    | [], h =>
      exfalso
      have h1 : (List.drop i [a0]).length ≤ 1 := by
        rw [List.length_drop]
        simp
      rw [hdrop] at h1
      simp at h1
    | b' :: rest', h =>
      rw [violates_offer_conflict] at h
      match hga0 : rm a0, hgb0 : rm b' with
      | none, _ => rw [hga0] at h; exact Except.noConfusion h
      | some giver0, none => rw [hga0, hgb0] at h; exact Except.noConfusion h
      | some giver0, some receiver0 =>
        rw [hga0, hgb0] at h
        dsimp only at h
        match hol : offersLoop a0 receiver0.wants used giver0.offers with
        | .error e => rw [hol] at h; exact Except.noConfusion h
        | .ok (true, u') =>
          rw [hol] at h
          dsimp only at h
          simp only [Except.ok.injEq, Prod.mk.injEq] at h
          exact absurd h.1 (by simp)
        | .ok (false, u') =>
          rw [hol] at h
          dsimp only at h
          match i, hdrop with
          | 0, hdrop =>
            simp only [List.drop_zero, List.cons.injEq] at hdrop
            obtain ⟨ha, hb, -⟩ := hdrop
            subst ha
            have hgeq : giver0 = giver := by
              rw [hga0] at hga
              exact Option.some.injEq _ _ ▸ hga
            have hreq : receiver0 = receiver := by
              rw [hb] at hgb0
              rw [hgb0] at hgb
              exact Option.some.injEq _ _ ▸ hgb
            rw [hgeq, hreq] at hol
            have := offersLoop_marks a0 receiver.wants giver.offers used u'
              hol o ho ko hko w hw kw hkw hmatch
            exact violates_subset rm (b' :: rest') u' false u h (a0, ko) this
          | i' + 1, hdrop =>
            rw [List.drop_succ_cons] at hdrop
            exact ih u' u h i' a b tail hdrop giver receiver hga hgb o ho ko
              hko w hw kw hkw hmatch

/-! ## Edges of `build_graph` come from offer/want matches -/

theorem wantsScan_true (ofn : Option String) :
    ∀ (wants : List Asset), wantsScan ofn wants = .ok true →
      ∃ ko, ofn = some ko ∧ ∃ w ∈ wants, ∃ kw, w.full_name = some kw ∧
        full_name_match ko kw = true := by
  intro wants
  induction wants with
  | nil =>
    intro h
    simp only [wantsScan, Except.ok.injEq] at h
    exact absurd h (by simp)
  | cons w0 ws ih =>
    intro h
    obtain ⟨wfn⟩ := w0
    cases ofn with
    | none => simp only [wantsScan] at h; exact Except.noConfusion h
    | some ko =>
      cases wfn with
      | none => simp only [wantsScan] at h; exact Except.noConfusion h
      | some kw0 =>
        simp only [wantsScan] at h
        by_cases hm : full_name_match ko kw0 = true
        · exact ⟨ko, rfl, ⟨some kw0⟩, by simp, kw0, rfl, hm⟩
        · rw [if_neg hm] at h
          obtain ⟨ko', hko', w, hw, kw, hkw, hm'⟩ := ih h
          exact ⟨ko', hko', w, by simp [hw], kw, hkw, hm'⟩

theorem anyPairMatch_true :
    ∀ (offers wants : List Asset), anyPairMatch offers wants = .ok true →
      ∃ o ∈ offers, ∃ ko, o.full_name = some ko ∧
        ∃ w ∈ wants, ∃ kw, w.full_name = some kw ∧
          full_name_match ko kw = true := by
  intro offers
  induction offers with
  | nil =>
    intro wants h
    simp only [anyPairMatch, Except.ok.injEq] at h
    exact absurd h (by simp)
  | cons o os ih =>
    intro wants h
    rw [anyPairMatch] at h
    match hws : wantsScan o.full_name wants with
    | .error e => rw [hws] at h; exact Except.noConfusion h
    | .ok true =>
      obtain ⟨ko, hko, w, hw, kw, hkw, hm⟩ := wantsScan_true o.full_name wants hws
      exact ⟨o, by simp, ko, hko, w, hw, kw, hkw, hm⟩
    | .ok false =>
      rw [hws] at h
      dsimp only at h
      obtain ⟨o', ho', rest⟩ := ih wants h
      exact ⟨o', by simp [ho'], rest⟩

theorem addEdge_mem (g : Graph) (a b : PId) (e : PId × PId)
    (h : e ∈ (addEdge g a b).edges) : e ∈ g.edges ∨ e = (a, b) := by
  unfold addEdge at h
  by_cases hm : (a, b) ∈ g.edges
  · rw [if_pos hm] at h
    exact Or.inl h
  · rw [if_neg hm] at h
    rcases List.mem_append.mp h with h' | h'
    · exact Or.inl h'
    · exact Or.inr (by simpa using h')

theorem edgesFor_edges (all : List Request) (ra : Request) :
    ∀ (rbs : List Request) (g g' : Graph),
      edgesFor ra rbs g = .ok g' →
      ra ∈ all → (∀ rb ∈ rbs, rb ∈ all) →
      (∀ e ∈ g.edges, demandEdge all e.1 e.2) →
      ∀ e ∈ g'.edges, demandEdge all e.1 e.2 := by
  intro rbs
  induction rbs with
  | nil =>
    intro g g' h _ _ hg e he
    simp only [edgesFor, Except.ok.injEq] at h
    exact hg e (h ▸ he)
  | cons rb rbs ih =>
    intro g g' h hra hall hg e he
    rw [edgesFor] at h
    by_cases hid : ra.id = rb.id
    · rw [if_pos hid] at h
      exact ih g g' h hra (fun x hx => hall x (by simp [hx])) hg e he
    · rw [if_neg hid] at h
      match ham : anyPairMatch ra.offers rb.wants with
      | .error er => rw [ham] at h; exact Except.noConfusion h
      | .ok true =>
        rw [ham] at h
        dsimp only at h
        refine ih _ g' h hra (fun x hx => hall x (by simp [hx])) ?_ e he
        intro e' he'
        rcases addEdge_mem g ra.id rb.id e' he' with h' | h'
        · exact hg e' h'
        · obtain ⟨o, ho, ko, hko, w, hw, kw, hkw, hm⟩ :=
            anyPairMatch_true ra.offers rb.wants ham
          subst h'
          exact ⟨ra, hra, rb, hall rb (by simp), rfl, rfl, hid,
            o, ho, ko, hko, w, hw, kw, hkw, hm⟩
      | .ok false =>
        rw [ham] at h
        dsimp only at h
        exact ih g g' h hra (fun x hx => hall x (by simp [hx])) hg e he

theorem buildEdges_edges (all : List Request) :
    ∀ (ras : List Request) (g g' : Graph),
      buildEdges all ras g = .ok g' →
      (∀ ra ∈ ras, ra ∈ all) →
      (∀ e ∈ g.edges, demandEdge all e.1 e.2) →
      ∀ e ∈ g'.edges, demandEdge all e.1 e.2 := by
  intro ras
  induction ras with
  | nil =>
    intro g g' h _ hg e he
    simp only [buildEdges, Except.ok.injEq] at h
    exact hg e (h ▸ he)
  | cons ra ras ih =>
    intro g g' h hall hg e he
    rw [buildEdges] at h
    match hef : edgesFor ra all g with
    | .error er => rw [hef] at h; exact Except.noConfusion h
    | .ok g₁ =>
      rw [hef] at h
      dsimp only at h
      refine ih g₁ g' h (fun x hx => hall x (by simp [hx])) ?_ e he
      exact edgesFor_edges all ra all g g₁ hef (hall ra (by simp))
        (fun x hx => hx) hg

/-- Every edge of the graph built by `build_graph` is witnessed by an
offer/want identity-key match between two requests with distinct ids. -/
theorem build_graph_edges (requests : List Request) (G : Graph)
    (h : build_graph requests = .ok G) :
    ∀ e ∈ G.edges, demandEdge requests e.1 e.2 := by
  unfold build_graph at h
  exact buildEdges_edges requests requests _ G h (fun x hx => hx)
    (by intro e he; simp at he)

/-! ## Invariants of the exhaustive strategy -/

theorem successors_mem (g : Graph) (node n : PId)
    (h : n ∈ successors g node) : (node, n) ∈ g.edges := by
  simp only [successors, List.mem_filter, decide_eq_true_eq] at h
  exact h.2

theorem subgraphOf_edges_sub (g : Graph) (comp : List PId) :
    ∀ e ∈ (subgraphOf g comp).edges, e ∈ g.edges := by
  intro e he
  simp only [subgraphOf, List.mem_filter] at he
  exact he.1

theorem pushesOf_good (g : Graph) (start node : PId) (maxLen : Nat)
    (path : List PId) (hne : path ≠ []) (hhead : path.head? = some start)
    (hlast : path.getLast? = some node) (hnodup : path.Nodup)
    (hchain : List.Chain' (fun a b => (a, b) ∈ g.edges) path) :
    ∀ (succs : List PId), (∀ n ∈ succs, (node, n) ∈ g.edges) →
      ∀ f ∈ pushesOf start maxLen path succs, GoodFrame g start f := by
  intro succs
  induction succs with
  | nil => intro _ f hf; simp [pushesOf] at hf
  | cons n rest ih =>
    intro hsucc f hf
    by_cases h1 : n = start ∧ 3 ≤ path.length
    · simp [pushesOf, h1] at hf
    · rw [pushesOf, if_neg h1] at hf
      by_cases h2 : n ∉ path ∧ path.length < maxLen
      · rw [if_pos h2] at hf
        rcases List.mem_cons.mp hf with hf0 | hfr
        · subst hf0
          refine ⟨by simp, ?_, ?_, ?_, ?_⟩
          · rw [List.head?_append, hhead]
            rfl
          · exact List.getLast?_concat path
          · simp [List.nodup_append, hnodup, h2.1]
          · rw [List.chain'_append]
            refine ⟨hchain, List.chain'_singleton n, ?_⟩
            intro x hx y hy
            simp only [List.head?_cons, Option.mem_def, Option.some.injEq]
              at hy
            rw [hlast] at hx
            simp only [Option.mem_def, Option.some.injEq] at hx
            subst hx
            subst hy
            exact hsucc n (by simp)
        · exact ih (fun m hm => hsucc m (by simp [hm])) f hfr
      · rw [if_neg h2] at hf
        exact ih (fun m hm => hsucc m (by simp [hm])) f hf

theorem exVisit_ok (g G : Graph) (rm : RequestMap) (start node : PId)
    (path : List PId) (hne : path ≠ []) (hhead : path.head? = some start)
    (hlast : path.getLast? = some node) (hnodup : path.Nodup)
    (hchain : List.Chain' (fun a b => (a, b) ∈ g.edges) path)
    (hsub : ∀ e ∈ g.edges, e ∈ G.edges) :
    ∀ (succs : List PId) (st st' : ExSt),
      (∀ n ∈ succs, (node, n) ∈ g.edges) → StOK G st →
      exVisit rm start path st succs = .ok st' → StOK G st' := by
  intro succs
  induction succs with
  | nil =>
    intro st st' _ hst h
    simp only [exVisit, Except.ok.injEq] at h
    exact h ▸ hst
  | cons n rest ih =>
    intro st st' hsucc hst h
    rw [exVisit] at h
    by_cases h1 : n = start ∧ 3 ≤ path.length
    · rw [if_pos h1] at h
      by_cases hused : (path ++ [start]).any
          (fun p => decide (p ∈ st.used_nodes)) = true
      · rw [if_pos hused] at h
        simp only [Except.ok.injEq] at h
        exact h ▸ hst
      · rw [if_neg hused] at h
        match hv : violates_offer_conflict (path ++ [start]) rm
            st.used_offers with
        | .error e => rw [hv] at h; exact Except.noConfusion h
        | .ok (true, u) =>
          rw [hv] at h
          dsimp only at h
          simp only [Except.ok.injEq] at h
          subst h
          exact ⟨hst.1, hst.2.1, hst.2.2⟩
        | .ok (false, u) =>
          rw [hv] at h
          dsimp only at h
          simp only [Except.ok.injEq] at h
          subst h
          obtain ⟨hcyc, hnodes, hdisj⟩ := hst
          have hfresh : ∀ p ∈ path ++ [start], p ∉ st.used_nodes := by
            intro p hp hmem
            rw [Bool.not_eq_true, List.any_eq_false] at hused
            have := hused p hp
            simp [hmem] at this
          have hcok : CycleOK G (path ++ [start]) := by
            refine ⟨?_, ?_, ?_, ?_⟩
            · rw [List.head?_append, hhead, List.getLast?_concat]
              rfl
            · rw [List.dropLast_concat]
              exact h1.2
            · rw [List.dropLast_concat]
              exact hnodup
            · refine List.Chain'.imp (fun a b hab => hsub _ hab) ?_
              rw [List.chain'_append]
              refine ⟨hchain, List.chain'_singleton start, ?_⟩
              intro x hx y hy
              simp only [List.head?_cons, Option.mem_def,
                Option.some.injEq] at hy
              rw [hlast] at hx
              simp only [Option.mem_def, Option.some.injEq] at hx
              subst hx
              subst hy
              exact h1.1 ▸ hsucc n (by simp)
          refine ⟨?_, ?_, ?_⟩
          · intro c hc
            rcases List.mem_append.mp hc with hc | hc
            · exact hcyc c hc
            · rw [List.mem_singleton.mp hc]
              exact hcok
          · intro c hc p hp
            rcases List.mem_append.mp hc with hc | hc
            · exact List.mem_append_left _ (hnodes c hc p hp)
            · rw [List.mem_singleton.mp hc] at hp
              exact List.mem_append_right _ hp
          · rw [List.pairwise_append]
            refine ⟨hdisj, by simp, ?_⟩
            intro c hc d hd p hp
            rw [List.mem_singleton.mp hd]
            intro hpd
            exact hfresh p hpd (hnodes c hc p hp)
    · rw [if_neg h1] at h
      exact ih st st' (fun m hm => hsucc m (by simp [hm])) hst h

theorem dfsLoopF_ok (g G : Graph) (rm : RequestMap) (maxLen : Nat)
    (start : PId) (hsub : ∀ e ∈ g.edges, e ∈ G.edges) :
    ∀ (fuel : Nat) (stack : List Frame) (st st' : ExSt),
      (∀ f ∈ stack, GoodFrame g start f) → StOK G st →
      dfsLoopF g rm maxLen start fuel stack st = .ok st' → StOK G st' := by
  intro fuel
  induction fuel with
  | zero =>
    intro stack st st' _ hst h
    match stack with
    | [] => simp only [dfsLoopF, Except.ok.injEq] at h; exact h ▸ hst
    | f :: rest => simp only [dfsLoopF, Except.ok.injEq] at h; exact h ▸ hst
  | succ fuel ih =>
    intro stack st st' hstack hst h
    match stack with
    | [] => simp only [dfsLoopF, Except.ok.injEq] at h; exact h ▸ hst
    | (node, path) :: rest =>
      rw [dfsLoopF] at h
      obtain ⟨hne, hhead, hlast, hnodup, hchain⟩ :=
        hstack (node, path) (by simp)
      match hv : exVisit rm start path st (successors g node) with
      | .error e => rw [hv] at h; exact Except.noConfusion h
      | .ok st₁ =>
        rw [hv] at h
        dsimp only at h
        refine ih _ st₁ st' ?_ ?_ h
        · intro f hf
          rcases List.mem_append.mp hf with hf | hf
          · exact pushesOf_good g start node maxLen path hne hhead hlast
              hnodup hchain (successors g node)
              (fun n hn => successors_mem g node n hn) f
              (List.mem_reverse.mp hf)
          · exact hstack f (by simp [hf])
        · exact exVisit_ok g G rm start node path hne hhead hlast hnodup
            hchain hsub (successors g node) st st₁
            (fun n hn => successors_mem g node n hn) hst hv

theorem exStarts_ok (g G : Graph) (rm : RequestMap) (maxLen : Nat)
    (hsub : ∀ e ∈ g.edges, e ∈ G.edges) :
    ∀ (starts : List PId) (st st' : ExSt), StOK G st →
      exStarts g rm maxLen starts st = .ok st' → StOK G st' := by
  intro starts
  induction starts with
  | nil =>
    intro st st' hst h
    simp only [exStarts, Except.ok.injEq] at h
    exact h ▸ hst
  | cons s ss ih =>
    intro st st' hst h
    rw [exStarts] at h
    match hd : dfsLoop g rm maxLen s [(s, [s])] st with
    | .error e => rw [hd] at h; exact Except.noConfusion h
    | .ok st₁ =>
      rw [hd] at h
      dsimp only at h
      refine ih st₁ st' ?_ h
      unfold dfsLoop at hd
      refine dfsLoopF_ok g G rm maxLen s hsub _ [(s, [s])] st st₁ ?_ hst hd
      intro f hf
      rw [List.mem_singleton.mp hf]
      exact ⟨by simp, rfl, rfl, by simp, List.chain'_singleton s⟩

theorem exComps_ok (G : Graph) (rm : RequestMap) (maxLen : Nat) :
    ∀ (comps : List (List PId)) (st st' : ExSt), StOK G st →
      exComps G rm maxLen comps st = .ok st' → StOK G st' := by
  intro comps
  induction comps with
  | nil =>
    intro st st' hst h
    simp only [exComps, Except.ok.injEq] at h
    exact h ▸ hst
  | cons comp comps ih =>
    intro st st' hst h
    rw [exComps] at h
    match hs : exStarts (subgraphOf G comp) rm maxLen
        (subgraphOf G comp).nodes st with
    | .error e => rw [hs] at h; exact Except.noConfusion h
    | .ok st₁ =>
      rw [hs] at h
      dsimp only at h
      exact ih st₁ st' (exStarts_ok (subgraphOf G comp) G rm maxLen
        (subgraphOf_edges_sub G comp) _ st st₁ hst hs) h

/-- Every run of the exhaustive strategy returns only well-formed cycles of
the input graph, pairwise node-disjoint. -/
theorem sample_cycles_exhaustive_ok (G : Graph) (rm : RequestMap)
    (maxLen : Nat) (cycles : List (List PId))
    (h : sample_cycles_exhaustive G rm maxLen = .ok cycles) :
    (∀ c ∈ cycles, CycleOK G c) ∧
      List.Pairwise (fun c d => ∀ p ∈ c, p ∉ d) cycles := by
  unfold sample_cycles_exhaustive at h
  match hc : exComps G rm maxLen (connectedComponents G)
      { all_cycles := [], used_nodes := [], used_offers := [] } with
  | .error e => rw [hc] at h; exact Except.noConfusion h
  | .ok st =>
    rw [hc] at h
    simp only [Except.map, Except.ok.injEq] at h
    have hst : StOK G st := by
      refine exComps_ok G rm maxLen (connectedComponents G) _ st ?_ hc
      exact ⟨by simp, by simp, by simp⟩
    exact h ▸ ⟨hst.1, hst.2.2⟩

/-! ## The `user_cycles` filter of `describe_cycles` -/

/-- When no node of any cycle is the Python integer `0` — in particular
whenever all participant ids are strings — the `user_cycles` view is
empty. -/
theorem describeFrom_snd_nil (rm : RequestMap) :
    ∀ (cs : List (List PId)) (i : Nat) (a m : List CycleRec),
      (∀ c ∈ cs, PyVal.int 0 ∉ c) →
      describeFrom rm i cs = .ok (a, m) → m = [] := by
  intro cs
  induction cs with
  | nil =>
    intro i a m _ h
    simp only [describeFrom, Except.ok.injEq, Prod.mk.injEq] at h
    exact h.2.symm
  | cons c cs ih =>
    intro i a m hz h
    rw [describeFrom] at h
    by_cases hskip : c.length < 3 ∨ ¬ c.head? = c.getLast?
    · rw [if_pos hskip] at h
      exact ih (i + 1) a m (fun d hd => hz d (by simp [hd])) h
    · rw [if_neg hskip] at h
      match hds : describeSteps rm c with
      | .error e => rw [hds] at h; exact Except.noConfusion h
      | .ok lines =>
        rw [hds] at h
        dsimp only at h
        match hrec : describeFrom rm (i + 1) cs with
        | .error e => rw [hrec] at h; exact Except.noConfusion h
        | .ok (alls, mines) =>
          rw [hrec] at h
          dsimp only at h
          rw [if_neg (hz c (by simp))] at h
          simp only [Except.ok.injEq, Prod.mk.injEq] at h
          exact h.2.symm ▸ ih (i + 1) alls mines
            (fun d hd => hz d (by simp [hd])) hrec

/-- Exact characterization of the `user_cycles` view: it is the list of
described rows whose underlying cycle (the one at index `cycle_id - i` of
the remaining input, `i` being the running `enumerate` counter) contains
the Python integer `0`. -/
theorem describeFrom_snd_filter (rm : RequestMap) :
    ∀ (cs : List (List PId)) (i : Nat) (a m : List CycleRec),
      describeFrom rm i cs = .ok (a, m) →
      (∀ row ∈ a, i ≤ row.cycle_id ∧ row.cycle_id - i < cs.length) ∧
      m = a.filter (fun row =>
        match cs.get? (row.cycle_id - i) with
        | some c => decide (PyVal.int 0 ∈ c)
        | none => false) := by
  intro cs
  induction cs with
  | nil =>
    intro i a m h
    simp only [describeFrom, Except.ok.injEq, Prod.mk.injEq] at h
    obtain ⟨ha, hm⟩ := h
    subst ha
    subst hm
    exact ⟨by simp, rfl⟩
  | cons c cs ih =>
    intro i a m h
    rw [describeFrom] at h
    by_cases hskip : c.length < 3 ∨ ¬ c.head? = c.getLast?
    · rw [if_pos hskip] at h
      obtain ⟨hbound, hm⟩ := ih (i + 1) a m h
      refine ⟨?_, ?_⟩
      · intro row hrow
        have := hbound row hrow
        constructor
        · omega
        · simp only [List.length_cons]
          omega
      · rw [hm]
        refine List.filter_congr ?_
        intro row hrow
        have hge := (hbound row hrow).1
        have hshift : row.cycle_id - i = (row.cycle_id - (i + 1)) + 1 := by
          omega
        rw [hshift]
        rfl
    · rw [if_neg hskip] at h
      match hds : describeSteps rm c with
      | .error e => rw [hds] at h; exact Except.noConfusion h
      | .ok lines =>
        rw [hds] at h
        dsimp only at h
        match hrec : describeFrom rm (i + 1) cs with
        | .error e => rw [hrec] at h; exact Except.noConfusion h
        | .ok (alls, mines) =>
          rw [hrec] at h
          dsimp only at h
          simp only [Except.ok.injEq, Prod.mk.injEq] at h
          obtain ⟨ha, hm⟩ := h
          obtain ⟨hbound, hmines⟩ := ih (i + 1) alls mines hrec
          have hfilter : mines = alls.filter (fun row =>
              match (c :: cs).get? (row.cycle_id - i) with
              | some d => decide (PyVal.int 0 ∈ d)
              | none => false) := by
            rw [hmines]
            refine List.filter_congr ?_
            intro row hrow
            have hge := (hbound row hrow).1
            have hshift : row.cycle_id - i = (row.cycle_id - (i + 1)) + 1 := by
              omega
            rw [hshift]
            rfl
          subst ha
          refine ⟨?_, ?_⟩
          · intro row hrow
            rcases List.mem_cons.mp hrow with hr0 | hrs
            · subst hr0
              simp only [List.length_cons]
              omega
            · have := hbound row hrs
              constructor
              · omega
              · simp only [List.length_cons]
                omega
          · rw [← hm]
            by_cases hz : PyVal.int 0 ∈ c
            · rw [if_pos hz]
              rw [List.filter_cons_of_pos (by simp [hz])]
              rw [hfilter]
            · rw [if_neg hz]
              rw [List.filter_cons_of_neg (by simp [hz])]
              rw [hfilter]

/-! ## Case- and whitespace-insensitivity of asset identity keys -/

theorem char_toLower_toUpper (c : Char) :
    Char.toLower (Char.toUpper c) = Char.toLower c := by
  unfold Char.toUpper Char.toLower
  by_cases h : 97 ≤ c.toNat ∧ c.toNat ≤ 122
  · have hv : (Char.ofNat (c.toNat - 32)).toNat = c.toNat - 32 := by
      unfold Char.ofNat
      rw [dif_pos]
      · rfl
      · left
        omega
    simp only [if_pos h, hv]
    rw [if_pos (by omega : 65 ≤ c.toNat - 32 ∧ c.toNat - 32 ≤ 90),
      if_neg (by omega : ¬(65 ≤ c.toNat ∧ c.toNat ≤ 90))]
    conv_rhs => rw [← Char.ofNat_toNat c]
    congr 1
    omega
  · rw [if_neg h]

theorem strLower_strUpper (s : String) :
    strLower (strUpper s) = strLower s := by
  unfold strLower strUpper
  refine congrArg String.mk ?_
  rw [List.map_map]
  exact List.map_congr_left (fun c _ => char_toLower_toUpper c)

theorem strLower_append (a b : String) :
    strLower (a ++ b) = strLower a ++ strLower b := by
  cases a
  cases b
  refine congrArg String.mk ?_
  simp [strLower]

/-! ## `build_graph` succeeds when every asset record has its key -/

theorem wantsScan_ok (ko : String) :
    ∀ (wants : List Asset), (∀ w ∈ wants, w.full_name.isSome) →
      ∃ b, wantsScan (some ko) wants = .ok b := by
  intro wants
  induction wants with
  | nil => intro _; exact ⟨false, rfl⟩
  | cons w ws ih =>
    intro hw
    obtain ⟨wfn⟩ := w
    obtain ⟨kw, hkw⟩ := Option.isSome_iff_exists.mp (hw ⟨wfn⟩ (by simp))
    subst hkw
    simp only [wantsScan]
    by_cases hm : full_name_match ko kw = true
    · exact ⟨true, by rw [if_pos hm]⟩
    · rw [if_neg hm]
      exact ih (fun x hx => hw x (by simp [hx]))

theorem anyPairMatch_ok :
    ∀ (offers wants : List Asset),
      (∀ o ∈ offers, o.full_name.isSome) →
      (∀ w ∈ wants, w.full_name.isSome) →
      ∃ b, anyPairMatch offers wants = .ok b := by
  intro offers
  induction offers with
  | nil => intro wants _ _; exact ⟨false, rfl⟩
  | cons o os ih =>
    intro wants ho hw
    obtain ⟨ko, hko⟩ := Option.isSome_iff_exists.mp (ho o (by simp))
    obtain ⟨b, hb⟩ := wantsScan_ok ko wants hw
    rw [anyPairMatch, hko, hb]
    cases b
    · exact ih wants (fun x hx => ho x (by simp [hx])) hw
    · exact ⟨true, rfl⟩

theorem edgesFor_ok (ra : Request)
    (hra : ∀ o ∈ ra.offers, o.full_name.isSome) :
    ∀ (rbs : List Request) (g : Graph),
      (∀ rb ∈ rbs, ∀ w ∈ rb.wants, w.full_name.isSome) →
      ∃ g', edgesFor ra rbs g = .ok g' := by
  intro rbs
  induction rbs with
  | nil => intro g _; exact ⟨g, rfl⟩
  | cons rb rbs ih =>
    intro g hrb
    rw [edgesFor]
    by_cases hid : ra.id = rb.id
    · rw [if_pos hid]
      exact ih g (fun x hx => hrb x (by simp [hx]))
    · rw [if_neg hid]
      obtain ⟨b, hb⟩ := anyPairMatch_ok ra.offers rb.wants hra
        (hrb rb (by simp))
      rw [hb]
      cases b
      · exact ih g (fun x hx => hrb x (by simp [hx]))
      · exact ih (addEdge g ra.id rb.id) (fun x hx => hrb x (by simp [hx]))

theorem buildEdges_ok (all : List Request)
    (hall : ∀ r ∈ all, ∀ w ∈ r.wants, w.full_name.isSome) :
    ∀ (ras : List Request) (g : Graph),
      (∀ r ∈ ras, ∀ o ∈ r.offers, o.full_name.isSome) →
      ∃ g', buildEdges all ras g = .ok g' := by
  intro ras
  induction ras with
  | nil => intro g _; exact ⟨g, rfl⟩
  | cons ra ras ih =>
    intro g hras
    obtain ⟨g₁, hg₁⟩ := edgesFor_ok ra (hras ra (by simp)) all g hall
    rw [buildEdges, hg₁]
    exact ih g₁ (fun x hx => hras x (by simp [hx]))

/-! ## The gift pair re-derived by `describe_cycles` names a cycle node -/

theorem giftAt_fst_mem (rm : RequestMap) (c : List PId) (i : Nat)
    (pk : Key) (h : giftAt rm c i = .ok (some pk)) : pk.1 ∈ c := by
  unfold giftAt at h
  match hd : c.drop i with
  | [] => rw [hd] at h; dsimp only at h; simp at h
  | [a] => rw [hd] at h; dsimp only at h; simp at h
  | a :: b :: tail =>
    rw [hd] at h
    dsimp only at h
    match hga : rm a, hgb : rm b with
    | none, _ => rw [hga] at h; exact Except.noConfusion h
    | some giver, none => rw [hga, hgb] at h; exact Except.noConfusion h
    | some giver, some receiver =>
      rw [hga, hgb] at h
      dsimp only at h
      match hmo : matchingOffer giver receiver with
      | .error e => rw [hmo] at h; exact Except.noConfusion h
      | .ok opt =>
        rw [hmo] at h
        simp only [Except.map, Except.ok.injEq] at h
        have : pk.1 = a := by
          cases opt with
          | none => simp at h
          | some k =>
            simp only [Option.map_some'] at h
            injection h with h'
            rw [← h']
        rw [this]
        exact List.mem_of_mem_drop (hd ▸ List.mem_cons_self a (b :: tail))

/-! # Claim theorems -/

/-- C1: on the three-participant example (A offers X wants Y, B offers Y
wants Z, C offers Z wants X) the code does *not* behave as claimed: the
greedy strategy returns no cycle at all (its filter `c[0] == c[-1]`
rejects every list produced by `nx.simple_cycles`, which never repeats the
start node), and the exhaustive strategy returns the single cycle
`[A, C, B, A]` — the giving direction A→C→B→A, not `[A, B, C, A]` or a
rotation of it — whose description lines are `A offers 'X' → to C`,
`C offers 'Z' → to B`, `B offers 'Y' → to A`. -/
theorem claim_C1_end_to_end_run :
    build_graph requests1 = .ok g1 ∧
    sample_cycles_greedy g1 rm1 10 = .ok [] ∧
    sample_cycles_exhaustive g1 rm1 10 = .ok [[pA, pC, pB, pA]] ∧
    describe_cycles [[pA, pC, pB, pA]] rm1 =
      .ok ([⟨0, "A offers 'X' → to C\nC offers 'Z' → to B\nB offers 'Y' → to A"⟩],
        []) :=
  ⟨rfl, sample_cycles_greedy_eq_nil g1 rm1 10, rfl, rfl⟩

/-- C2: every cycle returned by either strategy on a graph built by
`build_graph` closes (first node = last node), has at least three distinct
internal participants, and each consecutive pair is a demand-graph edge:
the giver offers an asset whose identity key matches, case-insensitively,
a want of the receiver. -/
theorem claim_C2_cycle_closure (requests : List Request) (G : Graph)
    (rm : RequestMap) (maxLen : Nat) (cycles : List (List PId))
    (hG : build_graph requests = .ok G)
    (hrun : sample_cycles_greedy G rm maxLen = .ok cycles ∨
      sample_cycles_exhaustive G rm maxLen = .ok cycles) :
    ∀ c ∈ cycles, c.head? = c.getLast? ∧ 3 ≤ c.dropLast.length ∧
      c.dropLast.Nodup ∧ List.Chain' (demandEdge requests) c := by
  rcases hrun with hrun | hrun
  · rw [sample_cycles_greedy_eq_nil G rm maxLen] at hrun
    simp only [Except.ok.injEq] at hrun
    rw [← hrun]
    intro c hc
    simp at hc
  · obtain ⟨hcyc, -⟩ := sample_cycles_exhaustive_ok G rm maxLen cycles hrun
    intro c hc
    obtain ⟨h1, h2, h3, h4⟩ := hcyc c hc
    exact ⟨h1, h2, h3,
      List.Chain'.imp (fun a b hab => build_graph_edges requests G hG (a, b) hab) h4⟩

theorem claim_C2_cycle_closure_witness :
    [pA, pC, pB, pA].head? = [pA, pC, pB, pA].getLast? ∧
    3 ≤ [pA, pC, pB, pA].dropLast.length ∧
    [pA, pC, pB, pA].dropLast.Nodup ∧
    List.Chain' (demandEdge requests1) [pA, pC, pB, pA] :=
  claim_C2_cycle_closure requests1 g1 rm1 10 [[pA, pC, pB, pA]] (by rfl)
    (Or.inr (by rfl)) [pA, pC, pB, pA] (by simp)

/-- C3: within one run of either strategy, no `(participantId, assetKey)`
pair is gifted (as re-derived by `describe_cycles`' first-match rule) in
two distinct cycles of the returned list. -/
theorem claim_C3_asset_at_most_once (G : Graph) (rm : RequestMap)
    (maxLen : Nat) (cycles : List (List PId))
    (hrun : sample_cycles_greedy G rm maxLen = .ok cycles ∨
      sample_cycles_exhaustive G rm maxLen = .ok cycles) :
    ∀ (i j : Nat) (hi : i < cycles.length) (hj : j < cycles.length),
      i ≠ j → ∀ (s t : Nat) (pk qk : Key),
      giftAt rm (cycles.get ⟨i, hi⟩) s = .ok (some pk) →
      giftAt rm (cycles.get ⟨j, hj⟩) t = .ok (some qk) → pk ≠ qk := by
  rcases hrun with hrun | hrun
  · rw [sample_cycles_greedy_eq_nil G rm maxLen] at hrun
    simp only [Except.ok.injEq] at hrun
    intro i j hi hj
    rw [← hrun] at hi
    simp at hi
  · obtain ⟨-, hdisj⟩ := sample_cycles_exhaustive_ok G rm maxLen cycles hrun
    intro i j hi hj hij s t pk qk hp hq heq
    have hpmem := giftAt_fst_mem rm _ s pk hp
    have hqmem := giftAt_fst_mem rm _ t qk hq
    rw [List.pairwise_iff_get] at hdisj
    rcases Nat.lt_or_ge i j with hlt | hge
    · exact hdisj ⟨i, hi⟩ ⟨j, hj⟩ hlt pk.1 hpmem (heq ▸ hqmem)
    · have hlt : j < i := by omega
      exact hdisj ⟨j, hj⟩ ⟨i, hi⟩ hlt qk.1 hqmem (heq ▸ hpmem)

theorem claim_C3_asset_at_most_once_witness :
    (pA, "X") ≠ ((pD, "U") : Key) :=
  claim_C3_asset_at_most_once g6 rm6 10 [[pA, pC, pB, pA], [pD, pF, pE, pD]]
    (Or.inr (by rfl)) 0 1 (by decide) (by decide) (by decide) 0 0
    (pA, "X") (pD, "U") (by rfl) (by rfl)

/-- C4: within one run of either strategy, the returned cycles are pairwise
node-disjoint — no participant id occurs in two distinct cycles. -/
theorem claim_C4_participant_at_most_once (G : Graph) (rm : RequestMap)
    (maxLen : Nat) (cycles : List (List PId))
    (hrun : sample_cycles_greedy G rm maxLen = .ok cycles ∨
      sample_cycles_exhaustive G rm maxLen = .ok cycles) :
    ∀ (i j : Nat) (hi : i < cycles.length) (hj : j < cycles.length),
      i ≠ j → ∀ p ∈ cycles.get ⟨i, hi⟩, p ∉ cycles.get ⟨j, hj⟩ := by
  rcases hrun with hrun | hrun
  · rw [sample_cycles_greedy_eq_nil G rm maxLen] at hrun
    simp only [Except.ok.injEq] at hrun
    intro i j hi hj
    rw [← hrun] at hi
    simp at hi
  · obtain ⟨-, hdisj⟩ := sample_cycles_exhaustive_ok G rm maxLen cycles hrun
    intro i j hi hj hij p hp
    rw [List.pairwise_iff_get] at hdisj
    rcases Nat.lt_or_ge i j with hlt | hge
    · exact hdisj ⟨i, hi⟩ ⟨j, hj⟩ hlt p hp
    · have hlt : j < i := by omega
      intro hq
      exact hdisj ⟨j, hj⟩ ⟨i, hi⟩ hlt p hq hp

theorem claim_C4_participant_at_most_once_witness :
    pA ∉ [pD, pF, pE, pD] :=
  claim_C4_participant_at_most_once g6 rm6 10
    [[pA, pC, pB, pA], [pD, pF, pE, pD]] (Or.inr (by rfl)) 0 1 (by decide)
    (by decide) (by decide) pA (by simp)

/-- C5 (counterexample): the conflict check is *not* atomic on rejection.
On the cycle P→Q→R→P with `(Q, "K2")` already used, the check rejects the
cycle (returns `True`) but the pair `(P, "K1")`, marked while processing
the first consecutive pair, is left in the tracker. -/
theorem claim_C5_counterexample :
    violates_offer_conflict [pP, pQ, pR, pP] rmC5 [(pQ, "K2")] =
      .ok (true, [(pQ, "K2"), (pP, "K1")]) ∧
    [(pQ, "K2"), (pP, "K1")] ≠ [(pQ, "K2")] :=
  ⟨rfl, by decide⟩

/-- C5 (amended): the tracker is only ever extended — everything marked
before the call is still marked after it, whether the candidate cycle is
accepted or rejected; rejection does not restore the pre-call state. -/
theorem claim_C5_no_rollback (cycle : List PId) (rm : RequestMap)
    (used : List Key) (b : Bool) (u : List Key)
    (h : violates_offer_conflict cycle rm used = .ok (b, u)) :
    ∀ k ∈ used, k ∈ u :=
  violates_subset rm cycle used b u h

theorem claim_C5_no_rollback_witness :
    (pQ, "K2") ∈ [((pQ : PId), "K2"), (pP, "K1")] :=
  claim_C5_no_rollback [pP, pQ, pR, pP] rmC5 [(pQ, "K2")] true
    [(pQ, "K2"), (pP, "K1")] (by rfl) (pQ, "K2") (by simp)

/-- C6 (counterexample): when the check accepts a cycle it does *not* mark
only the first matching offer of each pair: giver G offers both K1 and K2,
receiver H wants both, and after the accepting call *both* `(G, "K1")` and
`(G, "K2")` are marked — the claim says only the first, `(G, "K1")`,
should be. -/
theorem claim_C6_counterexample :
    violates_offer_conflict [pG, pH, pI, pG] rmC6 [] =
      .ok (false, [(pG, "K1"), (pG, "K2")]) ∧
    (pG, "K2") ∈ [((pG : PId), "K1"), (pG, "K2")] :=
  ⟨rfl, by simp⟩

/-- C6 (amended): when the check accepts a candidate cycle, then for each
consecutive `(giver, receiver)` pair it marks `(giver, full_name)` for
*every* offer of the giver whose identity key matches some want of the
receiver — all matches, not only the first. -/
theorem claim_C6_marks_every_match (cycle : List PId) (rm : RequestMap)
    (used u : List Key)
    (h : violates_offer_conflict cycle rm used = .ok (false, u))
    (i : Nat) (a b : PId) (tail : List PId)
    (hdrop : cycle.drop i = a :: b :: tail)
    (giver receiver : Request) (hga : rm a = some giver)
    (hgb : rm b = some receiver) :
    ∀ o ∈ giver.offers, ∀ ko, o.full_name = some ko →
    ∀ w ∈ receiver.wants, ∀ kw, w.full_name = some kw →
    full_name_match ko kw = true → (a, ko) ∈ u :=
  violates_marks rm cycle used u h i a b tail hdrop giver receiver hga hgb

theorem claim_C6_marks_every_match_witness :
    (pG, "K2") ∈ [((pG : PId), "K1"), (pG, "K2")] :=
  claim_C6_marks_every_match [pG, pH, pI, pG] rmC6 []
    [(pG, "K1"), (pG, "K2")] (by rfl) 0 pG pH [pI, pG] (by rfl)
    reqG reqH (by rfl) (by rfl) ⟨some "K2"⟩ (by simp [reqG]) "K2" rfl
    ⟨some "K2"⟩ (by simp [reqH]) "K2" rfl (by rfl)

/-- C7 (counterexample): the filtered "my matches" view is *not* "cycles
containing the designated self participant id": on the accepted cycle
`[A, C, B, A]` the id `A` (and likewise `B` and `C`) occurs in the node
sequence, yet the filtered view is empty — the source filters on the
Python integer literal `0`, which never equals a string agency id. -/
theorem claim_C7_counterexample :
    describe_cycles [[pA, pC, pB, pA]] rm1 =
      .ok ([⟨0, "A offers 'X' → to C\nC offers 'Z' → to B\nB offers 'Y' → to A"⟩],
        []) ∧
    pA ∈ [pA, pC, pB, pA] ∧ pB ∈ [pA, pC, pB, pA] ∧ pC ∈ [pA, pC, pB, pA] :=
  ⟨rfl, by simp, by simp, by simp⟩

/-- C7 (amended): the filtered view contains exactly the described cycles
whose node sequence contains the Python integer `0` — not a designated
self participant id.  (Participant ids are strings, so the view is empty
in every real run; see `describeFrom_snd_nil`.) -/
theorem claim_C7_user_filter (cycles : List (List PId)) (rm : RequestMap)
    (a m : List CycleRec) (h : describe_cycles cycles rm = .ok (a, m)) :
    m = a.filter (fun row =>
      match cycles.get? row.cycle_id with
      | some c => decide (PyVal.int 0 ∈ c)
      | none => false) := by
  have hspec := describeFrom_snd_filter rm cycles 0 a m h
  rw [hspec.2]
  refine List.filter_congr ?_
  intro row hrow
  rw [Nat.sub_zero]

theorem claim_C7_user_filter_witness :
    ([] : List CycleRec) =
      ([⟨0, "A offers 'X' → to C\nC offers 'Z' → to B\nB offers 'Y' → to A"⟩]
          : List CycleRec).filter (fun row =>
        match [[pA, pC, pB, pA]].get? row.cycle_id with
        | some c => decide (PyVal.int 0 ∈ c)
        | none => false) :=
  claim_C7_user_filter [[pA, pC, pB, pA]] rm1
    [⟨0, "A offers 'X' → to C\nC offers 'Z' → to B\nB offers 'Y' → to A"⟩]
    [] (by rfl)

/-- C8 (counterexample): graph construction *can* fail. A participant
whose offer record has no `full_name` key, compared against a participant
with a nonempty want list, raises `KeyError` instead of being silently
unmatchable. -/
theorem claim_C8_counterexample :
    build_graph [reqNoKey, reqWantK] = .error () :=
  rfl

/-- C8 (amended): `build_graph` succeeds on every participant list whose
offer and want records all carry a `full_name` key; a keyless record
raises `KeyError` when a comparison reaches it. -/
theorem claim_C8_ok_when_keyed (requests : List Request)
    (h : ∀ r ∈ requests, (∀ o ∈ r.offers, o.full_name.isSome) ∧
      (∀ w ∈ r.wants, w.full_name.isSome)) :
    ∃ G, build_graph requests = .ok G := by
  unfold build_graph
  exact buildEdges_ok requests (fun r hr => (h r hr).2) requests _
    (fun r hr => (h r hr).1)

theorem claim_C8_ok_when_keyed_witness :
    ∃ G, build_graph requests1 = .ok G :=
  claim_C8_ok_when_keyed requests1 (by decide)

/-- C9: asset identity keys are case- and surrounding-whitespace-
insensitive: if the model fields and the version fields agree up to letter
case and leading/trailing whitespace, the two identity keys compare equal
under the matching used by `build_graph` and `violates_offer_conflict`. -/
theorem claim_C9_key_insensitive (m1 v1 m2 v2 : String)
    (hm : strLower (strStrip m1) = strLower (strStrip m2))
    (hv : strLower (strStrip v1) = strLower (strStrip v2)) :
    full_name_match (mkFullName m1 v1) (mkFullName m2 v2) = true := by
  unfold full_name_match mkFullName
  rw [beq_iff_eq, strLower_append, strLower_append, strLower_append,
    strLower_append, strLower_strUpper, strLower_strUpper,
    strLower_strUpper, strLower_strUpper, hm, hv]

theorem claim_C9_key_insensitive_witness :
    (strLower (strStrip "Civic") = strLower (strStrip "CIVIC") ∧
      strLower (strStrip "LX ") = strLower (strStrip "lx")) ∧
    full_name_match (mkFullName "Civic" "LX ") (mkFullName "CIVIC" "lx") =
      true :=
  ⟨⟨rfl, rfl⟩, claim_C9_key_insensitive "Civic" "LX " "CIVIC" "lx" rfl rfl⟩

/-- C10: the greedy strategy never reads its `max_len` argument — its
result is identical for any two depth bounds. -/
theorem claim_C10_greedy_ignores_max_len (G : Graph) (rm : RequestMap)
    (m1 m2 : Nat) :
    sample_cycles_greedy G rm m1 = sample_cycles_greedy G rm m2 :=
  rfl
